import Mathlib

/-!
Verification of the instructional deep-learning notebooks in this repository.

The repository's own code is glue around an external tensor framework:
a convolution shape-demo (`comp_conv2d`), the LeNet layer stack, an
MLP for MNIST, an attention-based encoder-decoder for machine
translation (`process_one_seq`, `read_data`, `attention_forward`,
`translate`, `bleu`), a deferred-initialization demo and a multi-GPU
data-parallel training loop.  Each piece is embedded below as Lean
definitions, followed by theorems about them.
-/

namespace MLScratch

/-! ## Two-dimensional cross-correlation with padding and stride

`numWindows npad k s` counts the positions at which a window of size `k`,
sliding by `s` from offset 0, fits inside a (padded) extent `npad`:
offsets `o` that are multiples of `s` with `o + k ≤ npad`.  This is the
operational description of the stride from the notebook: the window
starts at the top-left and slides `s` cells at a time, producing an
output exactly when the input can fill the window. -/
def numWindows (npad k s : ℕ) : ℕ :=
  ((Finset.range (npad + 1)).filter (fun o => o % s = 0 ∧ o + k ≤ npad)).card

/-- An `nn.Conv2D` layer with one input and one output channel:
kernel height/width, padding added on EACH side of height/width,
stride along height/width, kernel values and bias. -/
structure Conv2DLayer where
  kh : ℕ
  kw : ℕ
  ph : ℕ
  pw : ℕ
  sh : ℕ
  sw : ℕ
  weight : ℕ → ℕ → ℚ
  bias : ℚ

/-- Element of the zero-padded input: `ph` rows of zeros above and below,
`pw` columns left and right, zeros outside the array. -/
def padGet (X : List (List ℚ)) (ph pw i j : ℕ) : ℚ :=
  if ph ≤ i ∧ pw ≤ j then (((X.get? (i - ph)).getD []).get? (j - pw)).getD 0
  else 0

/-- Shape of a 2-D array represented as a list of rows. -/
def matShape (X : List (List ℚ)) : ℕ × ℕ :=
  (X.length, (X.headD []).length)

/-- Strided 2-D cross-correlation of the padded input with the kernel,
plus bias: entry `(i, j)` of the output is computed from the window of
the padded input whose top-left corner is `(i*sh, j*sw)`. -/
def corr2d (l : Conv2DLayer) (X : List (List ℚ)) : List (List ℚ) :=
  let nh := X.length
  let nw := (X.headD []).length
  let oh := numWindows (nh + 2 * l.ph) l.kh l.sh
  let ow := numWindows (nw + 2 * l.pw) l.kw l.sw
  (List.range oh).map (fun i =>
    (List.range ow).map (fun j =>
      l.bias + ∑ a ∈ Finset.range l.kh, ∑ b ∈ Finset.range l.kw,
        l.weight a b * padGet X l.ph l.pw (i * l.sh + a) (j * l.sw + b)))

/-- Elementwise sum of a list of matrices (sum over input channels);
`matSum [M] = M`. -/
def matSum : List (List (List ℚ)) → List (List ℚ)
  | [] => []
  | M :: Ms => Ms.foldl (fun A B => A.zipWith (fun r s => r.zipWith (· + ·) s) B) M

/-- A single-output-channel `Conv2D` applied to a 4-D input
(batch × channel × height × width): per batch element, the per-channel
cross-correlations are summed into the one output channel. -/
def conv2dApply (l : Conv2DLayer) (X4 : List (List (List (List ℚ)))) :
    List (List (List (List ℚ))) :=
  X4.map (fun sample => [matSum (sample.map (corr2d l))])

/-- `comp_conv2d` from the padding-and-stride notebook: reshape the 2-D
input to (1, 1, h, w), run the convolution layer, and strip the batch
and channel dimensions from the result. -/
def comp_conv2d (l : Conv2DLayer) (X : List (List ℚ)) : List (List ℚ) :=
  ((conv2dApply l [[X]]).headD []).headD []

/-! ## The LeNet layer stack (shape semantics)

Only the shapes flow through the claim about LeNet, so layers are
embedded by their effect on a shape `[batch, channel, height, width]`
(or `[batch, features]` once flattened).  The convolution and pooling
cases reuse `numWindows`; a `Dense` layer flattens everything after the
batch axis and emits its unit count. -/
inductive GluonLayer where
  | conv (channels kernel padding : ℕ)
  | pool (size stride : ℕ)
  | dense (units : ℕ)

def layerShape : GluonLayer → List ℕ → List ℕ
  | .conv c k p, [b, _, h, w] =>
      [b, c, numWindows (h + 2 * p) k 1, numWindows (w + 2 * p) k 1]
  | .pool ps st, [b, c, h, w] => [b, c, numWindows h ps st, numWindows w ps st]
  | .dense u, b :: _ => [b, u]
  | _, s => s

/-- The LeNet `Sequential` from the notebook: Conv2D(6, 5, padding 2),
AvgPool2D(2, strides 2), Conv2D(16, 5), AvgPool2D(2, strides 2),
Dense(120), Dense(84), Dense(10). -/
def lenet : List GluonLayer :=
  [.conv 6 5 2, .pool 2 2, .conv 16 5 0, .pool 2 2,
   .dense 120, .dense 84, .dense 10]

/-- The shape printed after each layer of the layer-by-layer loop
(`for layer in net: X = layer(X); print(..., X.shape)`). -/
def layerOutputs : List GluonLayer → List ℕ → List (List ℕ)
  | [], _ => []
  | l :: ls, s => layerShape l s :: layerOutputs ls (layerShape l s)

/-! ## The MNIST multilayer perceptron -/

/-- Activation functions available to `nn.Dense`: `'relu'`, or the
default linear (identity) activation when none is passed. -/
inductive Act where
  | relu
  | linear
deriving DecidableEq

def actFun : Act → ℚ → ℚ
  | .relu => fun x => max x 0
  | .linear => fun x => x

/-- Forward computation of one `nn.Dense(m, activation=act)` layer:
an affine (fully-connected) transform followed by the activation. -/
def denseForward {m n : ℕ} (W : Fin m → Fin n → ℚ) (bias : Fin m → ℚ)
    (act : Act) (x : Fin n → ℚ) : Fin m → ℚ :=
  fun i => actFun act (bias i + ∑ j, W i j * x j)

/-- The MNIST network from `mnist.ipynb`:
`Dense(128, relu)`, `Dense(64, relu)`, `Dense(10)` (unit count and
activation of each layer, in order). -/
def mnistNet : List (ℕ × Act) :=
  [(128, .relu), (64, .relu), (10, .linear)]

/-! ## Machine-translation data preparation (bi-rnn notebook) -/

def PAD : String := "<pad>"
def BOS : String := "<bos>"
def EOS : String := "<eos>"

/-- `process_one_seq`: record the raw tokens in `all_tokens`, pad the
sequence with one `EOS` and then `PAD`s up to `max_seq_len`, and record
the padded sequence in `all_seqs`.  Returned as (padded sequence —
the in-place mutated `seq_tokens` —, new `all_tokens`, new
`all_seqs`). -/
def process_one_seq (seq_tokens all_tokens : List String)
    (all_seqs : List (List String)) (max_seq_len : ℕ) :
    List String × List String × List (List String) :=
  let all_tokens' := all_tokens ++ seq_tokens
  let seq_tokens' := seq_tokens ++ [EOS] ++
    List.replicate (max_seq_len - seq_tokens.length - 1) PAD
  (seq_tokens', all_tokens', all_seqs ++ [seq_tokens'])

/-- The padded form of a token list, as produced by `process_one_seq`. -/
def padSeq (max_seq_len : ℕ) (t : List String) : List String :=
  t ++ [EOS] ++ List.replicate (max_seq_len - t.length - 1) PAD

/-- `build_data`, with the vocabulary lookup `to_indices` (library
code) abstracted as `toIdx`: turn every recorded sequence into its
index sequence. -/
def build_data (toIdx : String → ℕ) (all_seqs : List (List String)) :
    List (List ℕ) :=
  all_seqs.map (fun seq => seq.map toIdx)

/-- One iteration of the `read_data` loop: a line (already split into
source and target token lists) is skipped exactly when either side has
more than `max_seq_len - 1` tokens (integer arithmetic, as in Python);
otherwise both sides go through `process_one_seq`. -/
def read_data_step (max_seq_len : ℕ)
    (acc : (List String × List (List String)) × (List String × List (List String)))
    (line : List String × List String) :
    (List String × List (List String)) × (List String × List (List String)) :=
  if (max line.1.length line.2.length : ℤ) > (max_seq_len : ℤ) - 1 then acc
  else
    let r1 := process_one_seq line.1 acc.1.1 acc.1.2 max_seq_len
    let r2 := process_one_seq line.2 acc.2.1 acc.2.2 max_seq_len
    ((r1.2.1, r1.2.2), (r2.2.1, r2.2.2))

/-- `read_data`, with the file contents abstracted as the list of
already-tokenized (source, target) lines: fold the loop body over the
lines, starting from empty `in_tokens`, `in_seqs`, `out_tokens`,
`out_seqs`. -/
def read_data (lines : List (List String × List String)) (max_seq_len : ℕ) :
    (List String × List (List String)) × (List String × List (List String)) :=
  lines.foldl (read_data_step max_seq_len) (([], []), ([], []))

/-- The lines `read_data` keeps. -/
def keptLines (lines : List (List String × List String)) (max_seq_len : ℕ) :
    List (List String × List String) :=
  lines.filter
    (fun line => !decide ((max line.1.length line.2.length : ℤ) > (max_seq_len : ℤ) - 1))

/-! ## Greedy translation (bi-rnn notebook)

The encoder and decoder are trained networks (library objects); they
are abstracted as an encoding function and a step function
`decStep dec_input dec_state = (pred_token, dec_state')` combining the
decoder forward pass, the argmax and the vocabulary lookup.  The loop
structure, the `EOS` test and the token accumulation are the
repository's own code and are embedded exactly. -/

def translateLoop {St : Type} (decStep : String → St → String × St) :
    ℕ → String → St → List String
  | 0, _, _ => []
  | fuel + 1, dec_input, dec_state =>
    let r := decStep dec_input dec_state
    if r.1 = EOS then []
    else r.1 :: translateLoop decStep fuel r.1 r.2

/-- `translate`: pad the input tokens with `EOS` and `PAD`s, encode
them, then greedily decode starting from `BOS` for at most
`max_seq_len` steps, stopping early (without recording the token) when
the prediction is `EOS`. -/
def translate {St : Type} (encode : List String → St)
    (decStep : String → St → String × St)
    (input_seq : String) (max_seq_len : ℕ) : List String :=
  let in_tokens := input_seq.splitOn " "
  let padded := in_tokens ++ [EOS] ++
    List.replicate (max_seq_len - in_tokens.length - 1) PAD
  translateLoop decStep max_seq_len BOS (encode padded)

/-! ## BLEU (bi-rnn notebook)

`bleu` is embedded with exact rational arithmetic for the quantities
the claim is about.  A run that would raise `ZeroDivisionError` in
Python is `none`.  Since the final score passes through `math.exp` and
fractional `math.pow`, `bleu` returns the score's components — the
argument `min(0, 1 - len_label/len_pred)` of the exponential and the
list of precisions `p_1, …, p_k` — and `bleuScore` interprets them as
the real number `exp(arg) * ∏ₙ pₙ^(1/2ⁿ)`. -/

/-- `' '.join(tokens)` as a character list. -/
def joinChars : List String → List Char
  | [] => []
  | [s] => s.toList
  | s :: t :: rest => s.toList ++ ' ' :: joinChars (t :: rest)

/-- Number of `i` for which the space-joined slice
`pred_tokens[i : i+n]` occurs as a substring of the space-joined label
sequence. -/
def numMatches (pred_tokens label_tokens : List String) (n : ℕ) : ℕ :=
  ((List.range (pred_tokens.length + 1 - n)).filter
    (fun i => decide (joinChars ((pred_tokens.drop i).take n) <:+: joinChars label_tokens))).length

/-- The `n`-gram precision `p_n = num_matches / (len_pred - n + 1)`,
`none` when the divisor `len_pred - n + 1` is zero
(`ZeroDivisionError`); for a negative divisor Python divides the empty
count 0 and gets (-)0, as does ℚ. -/
def precision (pred_tokens label_tokens : List String) (n : ℕ) : Option ℚ :=
  if ((pred_tokens.length : ℤ) - n + 1) = 0 then none
  else some ((numMatches pred_tokens label_tokens n : ℚ) /
    (((pred_tokens.length : ℤ) - n + 1 : ℤ) : ℚ))

/-- The precisions `p_n, p_{n+1}, …` for `fuel` more values of `n`,
propagating a `ZeroDivisionError` as `none`. -/
def precisionsFrom (pred_tokens label_tokens : List String) :
    ℕ → ℕ → Option (List ℚ)
  | _, 0 => some []
  | n, fuel + 1 =>
    match precision pred_tokens label_tokens n with
    | none => none
    | some p => (precisionsFrom pred_tokens label_tokens (n + 1) fuel).map (p :: ·)

/-- `bleu(pred_tokens, label_tokens, k)`: `none` when Python would
raise `ZeroDivisionError` (at `len_label / len_pred` or at some
`p_n`); otherwise the brevity-penalty exponent and the precisions. -/
def bleu (pred_tokens label_tokens : List String) (k : ℕ) :
    Option (ℚ × List ℚ) :=
  if pred_tokens.length = 0 then none
  else
    (precisionsFrom pred_tokens label_tokens 1 k).map
      (fun ps =>
        (min 0 (1 - (label_tokens.length : ℚ) / (pred_tokens.length : ℚ)), ps))

/-- `∏ₙ pₙ^(1/2ⁿ)` with `n` starting at the first argument. -/
noncomputable def bleuScoreAux : ℕ → List ℚ → ℝ
  | _, [] => 1
  | n, p :: ps => (p : ℝ) ^ ((1 / 2 : ℝ) ^ n) * bleuScoreAux (n + 1) ps

/-- The real score `exp(arg) * ∏ₙ pₙ^(1/2ⁿ)` of `bleu`'s components. -/
noncomputable def bleuScore (c : ℚ × List ℚ) : ℝ :=
  Real.exp c.1 * bleuScoreAux 1 c.2

/-! ## Attention (bi-rnn notebook)

Tensors of shape (T, batch, h) are embedded as functions
`Fin T → Fin B → Fin H → ℝ`.  The two `Dense` instances of
`attention_model` use no bias and no flattening, so they act on the
last axis pointwise in the leading axes. -/

/-- `nd.broadcast_axis(dec_state.expand_dims(0), axis=0, size=T)`. -/
def broadcastDec (T B H : ℕ) (dec_state : Fin B → Fin H → ℝ) :
    Fin T → Fin B → Fin H → ℝ :=
  fun _ b h => dec_state b h

/-- `nd.concat(enc_states, dec_states, dim=2)`. -/
def concatDim2 {T B H : ℕ} (enc_states dec_states : Fin T → Fin B → Fin H → ℝ) :
    Fin T → Fin B → Fin (H + H) → ℝ :=
  fun t b j =>
    if hj : (j : ℕ) < H then enc_states t b ⟨j, hj⟩
    else dec_states t b ⟨(j : ℕ) - H, by have := j.isLt; omega⟩

/-- `attention_model(attention_size)` applied to one feature vector:
`Dense(attention_size, tanh, no bias)` then `Dense(1, no bias)`. -/
noncomputable def attentionModel {A H2 : ℕ} (W1 : Fin A → Fin H2 → ℝ) (v : Fin A → ℝ)
    (x : Fin H2 → ℝ) : ℝ :=
  ∑ a, v a * Real.tanh (∑ j, W1 a j * x j)

/-- The scores `e` of `attention_forward`: the attention model applied
to the concatenation of the encoder states and the broadcast decoder
state, shape (T, batch, 1) with the trivial last axis dropped. -/
noncomputable def attentionScores {T B H A : ℕ}
    (W1 : Fin A → Fin (H + H) → ℝ) (v : Fin A → ℝ)
    (enc_states : Fin T → Fin B → Fin H → ℝ) (dec_state : Fin B → Fin H → ℝ) :
    Fin T → Fin B → ℝ :=
  fun t b => attentionModel W1 v (concatDim2 enc_states (broadcastDec T B H dec_state) t b)

/-- `nd.softmax(e, axis=0)`: softmax over the time-step axis. -/
noncomputable def softmaxTime {T B : ℕ} (e : Fin T → Fin B → ℝ) :
    Fin T → Fin B → ℝ :=
  fun t b => Real.exp (e t b) / ∑ s, Real.exp (e s b)

/-- `attention_forward(model, enc_states, dec_state)`: softmax the
scores over time and return `(alpha * enc_states).sum(axis=0)`. -/
noncomputable def attention_forward {T B H A : ℕ}
    (W1 : Fin A → Fin (H + H) → ℝ) (v : Fin A → ℝ)
    (enc_states : Fin T → Fin B → Fin H → ℝ) (dec_state : Fin B → Fin H → ℝ) :
    Fin B → Fin H → ℝ :=
  let alpha := softmaxTime (attentionScores W1 v enc_states dec_state)
  fun b h => ∑ t, alpha t b * enc_states t b h

/-! ## Deferred initialization (deferred-init notebook)

Modelled from the spec: the Gluon runtime that performs deferred
initialization (`Block.initialize`, shape inference at the first
forward pass, and the `Initializer` callback protocol) is library code
not present in this repository; only its observable protocol, as the
spec and the notebook's recorded outputs describe it, is modelled.
A network is a list of `Dense` unit counts built without `in_units`;
`initLog` records one entry, the weight shape, per invocation of the
user-supplied initializer on a weight. -/

structure DeferNet where
  layers : List ℕ
  initPending : Bool
  inDim : Option ℕ
  initLog : List (ℕ × ℕ)
deriving DecidableEq

/-- `getnet()` from the notebook generalised to any unit counts:
no `initialize` call yet, no input shape observed, initializer never
invoked. -/
def getnet (layers : List ℕ) : DeferNet :=
  ⟨layers, false, none, []⟩

/-- Modelled from the spec: `net.initialize(init=...)` only registers
the pending initialization; it allocates nothing and does not invoke
the initializer. -/
def initializeNet (s : DeferNet) : DeferNet :=
  { s with initPending := true }

/-- The weight shape of each `Dense(u)` layer: `(u, in_dim)` where the
input dimension is 0 while unknown, the observed data dimension for
the first layer once known, and the previous layer's unit count for
the later layers. -/
def weightShapes (layers : List ℕ) (inDim : Option ℕ) : List (ℕ × ℕ) :=
  match inDim with
  | none => layers.map (fun u => (u, 0))
  | some d => layers.zip (d :: layers)

/-- Modelled from the spec: a forward pass `net(x)` on data of feature
dimension `inDim` fails if `initialize` was never called; at the first
forward pass it fixes the input shape and invokes the initializer once
per weight; on later passes it does neither. -/
def forwardNet (s : DeferNet) (inDim : ℕ) : Except String DeferNet :=
  if !s.initPending then .error "parameters not initialized" else
  match s.inDim with
  | none => .ok { s with
      inDim := some inDim
      initLog := s.initLog ++ weightShapes s.layers (some inDim) }
  | some _ => .ok s

/-! ## Multi-GPU data-parallel training (`part_001`)

Modelled from the spec: `net.initialize(ctx=[gpu(0), gpu(1)])` and
`gluon.Trainer.step` live in MXNet, not in this repository.  Following
the spec's description of data parallelism, a state holds one replica
of the parameter vector per device; `initialize` broadcasts one
initial value to every device, and a step sums the per-device
gradients and applies the same aggregated update to every replica. -/

/-- `net.initialize(..., ctx=ctx)`: every one of the `n` devices
receives the same initial parameter values. -/
def dpInitialize (n m : ℕ) (v : Fin m → ℚ) : Fin n → Fin m → ℚ :=
  fun _ => v

/-- `trainer.step`: sum the per-device gradients, broadcast the total,
and let every device apply the same SGD update to its replica. -/
def dpStep {n m : ℕ} (lr : ℚ) (grads : Fin n → Fin m → ℚ)
    (s : Fin n → Fin m → ℚ) : Fin n → Fin m → ℚ :=
  fun d j => s d j - lr * ∑ d', grads d' j

/-- The training loop: one `dpStep` per mini-batch, starting from the
replicated initialization. -/
def dpRun {n m : ℕ} (lr : ℚ) (batches : List (Fin n → Fin m → ℚ))
    (v : Fin m → ℚ) : Fin n → Fin m → ℚ :=
  batches.foldl (fun s g => dpStep lr g s) (dpInitialize n m v)

/-! ## Shape lemmas for the convolution embedding -/

theorem numWindows_eq (npad k s : ℕ) (hs : 0 < s) (hk : k ≤ npad) :
    numWindows npad k s = (npad - k) / s + 1 := by
  unfold numWindows
  have himg : (Finset.range (npad + 1)).filter (fun o => o % s = 0 ∧ o + k ≤ npad)
      = (Finset.range ((npad - k) / s + 1)).image (· * s) := by
    ext o
    simp only [Finset.mem_filter, Finset.mem_image, Finset.mem_range, Nat.lt_succ_iff]
    constructor
    · rintro ⟨ho, hmod, hok⟩
      refine ⟨o / s, ?_, ?_⟩
      · exact Nat.div_le_div_right (by omega)
      · rw [Nat.div_mul_cancel (Nat.dvd_of_mod_eq_zero hmod)]
    · rintro ⟨i, hi, rfl⟩
      have h1 : i * s ≤ (npad - k) / s * s := Nat.mul_le_mul_right s hi
      have h2 : (npad - k) / s * s ≤ npad - k := Nat.div_mul_le_self _ _
      refine ⟨by omega, Nat.mul_mod_left i s, by omega⟩
  rw [himg, Finset.card_image_of_injective _ (mul_left_injective₀ hs.ne'),
    Finset.card_range]

theorem matShape_corr2d (l : Conv2DLayer) (X : List (List ℚ)) :
    matShape (corr2d l X) =
      (numWindows (X.length + 2 * l.ph) l.kh l.sh,
       if numWindows (X.length + 2 * l.ph) l.kh l.sh = 0 then 0
       else numWindows ((X.headD []).length + 2 * l.pw) l.kw l.sw) := by
  unfold corr2d matShape
  rcases h : numWindows (X.length + 2 * l.ph) l.kh l.sh with _ | n
  · simp [h]
  · simp [h, List.range_succ_eq_map]

theorem comp_conv2d_eq_corr2d (l : Conv2DLayer) (X : List (List ℚ)) :
    comp_conv2d l X = corr2d l X := rfl

/-- Output shape of `comp_conv2d` in closed form, given positive strides
and a kernel that fits at least once in each padded dimension. -/
theorem matShape_comp_conv2d (l : Conv2DLayer) (X : List (List ℚ))
    (hsh : 0 < l.sh) (hsw : 0 < l.sw)
    (hkh : l.kh ≤ X.length + 2 * l.ph)
    (hkw : l.kw ≤ (X.headD []).length + 2 * l.pw) :
    matShape (comp_conv2d l X) =
      ((X.length + 2 * l.ph + l.sh - l.kh) / l.sh,
       ((X.headD []).length + 2 * l.pw + l.sw - l.kw) / l.sw) := by
  rw [comp_conv2d_eq_corr2d, matShape_corr2d,
    numWindows_eq _ _ _ hsh hkh, numWindows_eq _ _ _ hsw hkw]
  have e1 : X.length + 2 * l.ph + l.sh - l.kh = (X.length + 2 * l.ph - l.kh) + l.sh := by
    omega
  have e2 : (X.headD []).length + 2 * l.pw + l.sw - l.kw
      = ((X.headD []).length + 2 * l.pw - l.kw) + l.sw := by omega
  rw [e1, e2, Nat.add_div_right _ hsh, Nat.add_div_right _ hsw]
  simp

/-- C1.  For every 2-D cross-correlation with input extents `n_h, n_w`,
kernel `k_h, k_w`, total padding `p_h, p_w` and positive strides
`s_h, s_w` such that the padded input is at least as large as the
kernel, the number of output rows and columns is
⌊(n−k+p+s)/s⌋ in each dimension (written `(n + p + s − k) / s` in
truncated natural arithmetic, which agrees with the integer floor under
the hypothesis `k ≤ n + p`); as observed through `comp_conv2d`, which
strips the batch and channel dimensions, a layer with per-side padding
`ph, pw` realises total padding `2*ph, 2*pw`.  In particular an 8×8
input with kernel (3,5), per-side padding (0,1), strides (3,4) yields a
2×2 output, and kernel 3, padding 1, strides 2 yields a 4×4 output. -/
theorem conv2d_output_shape_formula :
    (∀ n k p s : ℕ, 0 < s → k ≤ n + p →
      numWindows (n + p) k s = (n + p + s - k) / s) ∧
    (∀ (l : Conv2DLayer) (X : List (List ℚ)),
      0 < l.sh → 0 < l.sw → l.kh ≤ X.length + 2 * l.ph →
      l.kw ≤ (X.headD []).length + 2 * l.pw →
      matShape (comp_conv2d l X) =
        ((X.length + 2 * l.ph + l.sh - l.kh) / l.sh,
         ((X.headD []).length + 2 * l.pw + l.sw - l.kw) / l.sw)) ∧
    (∀ (w : ℕ → ℕ → ℚ) (b : ℚ),
      matShape (comp_conv2d ⟨3, 5, 0, 1, 3, 4, w, b⟩
        (List.replicate 8 (List.replicate 8 (0 : ℚ)))) = (2, 2)) ∧
    (∀ (w : ℕ → ℕ → ℚ) (b : ℚ),
      matShape (comp_conv2d ⟨3, 3, 1, 1, 2, 2, w, b⟩
        (List.replicate 8 (List.replicate 8 (0 : ℚ)))) = (4, 4)) := by
  refine ⟨?_, ?_, ?_, ?_⟩
  · intro n k p s hs hk
    rw [numWindows_eq _ _ _ hs hk]
    have e : n + p + s - k = (n + p - k) + s := by omega
    rw [e, Nat.add_div_right _ hs]
  · exact fun l X h1 h2 h3 h4 => matShape_comp_conv2d l X h1 h2 h3 h4
  · intro w b
    rw [comp_conv2d_eq_corr2d, matShape_corr2d]
    simp
    decide
  · intro w b
    rw [comp_conv2d_eq_corr2d, matShape_corr2d]
    simp
    decide

theorem conv2d_output_shape_formula_witness :
    0 < 2 ∧ 3 ≤ 8 + 2 ∧ numWindows (8 + 2) 3 2 = (8 + 2 + 2 - 3) / 2 :=
  ⟨by decide, by decide,
    conv2d_output_shape_formula.1 8 3 2 2 (by decide) (by decide)⟩

/-- C10.  The output shape of `comp_conv2d` is independent of the values
stored in the input array: for inputs of equal shape, the outputs have
equal shape, regardless of the entries (and of the layer's weights,
over which the statement is also universally quantified). -/
theorem comp_conv2d_shape_noninterference (l : Conv2DLayer)
    (X1 X2 : List (List ℚ)) (h : matShape X1 = matShape X2) :
    matShape (comp_conv2d l X1) = matShape (comp_conv2d l X2) := by
  simp only [matShape, Prod.mk.injEq] at h
  obtain ⟨h1, h2⟩ := h
  rw [comp_conv2d_eq_corr2d, comp_conv2d_eq_corr2d, matShape_corr2d,
    matShape_corr2d, h1, h2]

theorem comp_conv2d_shape_noninterference_witness :
    matShape [[(1 : ℚ)]] = matShape [[(2 : ℚ)]] ∧
      matShape (comp_conv2d ⟨1, 1, 0, 0, 1, 1, fun _ _ => 1, 0⟩ [[(1 : ℚ)]])
        = matShape (comp_conv2d ⟨1, 1, 0, 0, 1, 1, fun _ _ => 1, 0⟩ [[(2 : ℚ)]]) :=
  ⟨rfl, comp_conv2d_shape_noninterference _ [[(1 : ℚ)]] [[(2 : ℚ)]] rfl⟩

/-- C4.  Feeding a (1, 1, 28, 28) input through the LeNet stack yields,
layer by layer, the shapes (1,6,28,28), (1,6,14,14), (1,16,10,10),
(1,16,5,5), (1,120), (1,84), (1,10); moreover a 5×5 convolution with
padding 2 preserves any positive height/width, a 5×5 convolution
without padding reduces a height/width of at least 5 by 4, and 2×2
stride-2 average pooling halves any height/width of at least 2. -/
theorem lenet_layer_shapes :
    layerOutputs lenet [1, 1, 28, 28] =
      [[1, 6, 28, 28], [1, 6, 14, 14], [1, 16, 10, 10], [1, 16, 5, 5],
       [1, 120], [1, 84], [1, 10]] ∧
    (∀ h : ℕ, 1 ≤ h → numWindows (h + 2 * 2) 5 1 = h) ∧
    (∀ h : ℕ, 5 ≤ h → numWindows h 5 1 = h - 4) ∧
    (∀ h : ℕ, 2 ≤ h → numWindows h 2 2 = h / 2) := by
  refine ⟨by decide, ?_, ?_, ?_⟩
  · intro h hh
    rw [numWindows_eq _ _ _ Nat.one_pos (by omega)]
    omega
  · intro h hh
    rw [numWindows_eq _ _ _ Nat.one_pos (by omega)]
    omega
  · intro h hh
    rw [numWindows_eq _ _ _ (by omega) (by omega)]
    omega

theorem lenet_layer_shapes_witness :
    1 ≤ 28 ∧ numWindows (28 + 2 * 2) 5 1 = 28 :=
  ⟨by decide, lenet_layer_shapes.2.1 28 (by decide)⟩

/-- C6.  For every input sequence and every `max_seq_len` (and every
encoder and decoder, abstracted as functions), the token list returned
by `translate` has length at most `max_seq_len` and never contains the
`EOS` token: the greedy loop runs at most `max_seq_len` iterations and
breaks on an `EOS` prediction without appending it. -/
theorem translate_bounded_and_eos_free {St : Type} (encode : List String → St)
    (decStep : String → St → String × St) (input_seq : String) (max_seq_len : ℕ) :
    (translate encode decStep input_seq max_seq_len).length ≤ max_seq_len ∧
    EOS ∉ translate encode decStep input_seq max_seq_len := by
  have key : ∀ (fuel : ℕ) (inp : String) (st : St),
      (translateLoop decStep fuel inp st).length ≤ fuel ∧
      EOS ∉ translateLoop decStep fuel inp st := by
    intro fuel
    induction fuel with
    | zero => intro inp st; simp [translateLoop]
    | succ n ih =>
      intro inp st
      simp only [translateLoop]
      by_cases h : (decStep inp st).1 = EOS
      · simp [h]
      · simp only [if_neg h]
        obtain ⟨h1, h2⟩ := ih (decStep inp st).1 (decStep inp st).2
        refine ⟨by simpa using Nat.succ_le_succ h1, ?_⟩
        intro hm
        rcases List.mem_cons.mp hm with h' | h'
        · exact h h'.symm
        · exact h2 h'
  exact key max_seq_len BOS _

/-- C7 counterexample.  Not every layer of the MNIST network applies a
nonlinearity after its fully-connected transform: the final
`Dense(10)` layer has the default linear activation, which is the
(linear) identity map. -/
theorem mnist_last_layer_is_linear :
    ¬ (∀ p ∈ mnistNet, ¬ ∃ a : ℚ, ∀ x : ℚ, actFun p.2 x = a * x) := by
  intro h
  exact h (10, Act.linear) (by simp [mnistNet]) ⟨1, fun x => (one_mul x).symm⟩

/-- C7 amended.  The MNIST network is the stack `Dense(128, relu)`,
`Dense(64, relu)`, `Dense(10)`; each of the first two layers applies a
fully-connected transform followed by the (nonlinear) ReLU, while the
final layer applies a fully-connected transform with the default
linear activation. -/
theorem mnist_mlp_structure :
    mnistNet = [(128, Act.relu), (64, Act.relu), (10, Act.linear)] ∧
    (∀ p ∈ mnistNet.take 2, ¬ ∃ a : ℚ, ∀ x : ℚ, actFun p.2 x = a * x) ∧
    (∃ a : ℚ, ∀ x : ℚ, actFun Act.linear x = a * x) := by
  have hrelu : ¬ ∃ a : ℚ, ∀ x : ℚ, actFun Act.relu x = a * x := by
    rintro ⟨a, ha⟩
    have h1 := ha 1
    have h2 := ha (-1)
    norm_num [actFun] at h1 h2
    exact absurd (h1.trans h2) one_ne_zero
  refine ⟨rfl, ?_, ⟨1, fun x => (one_mul x).symm⟩⟩
  intro p hp
  simp only [mnistNet, List.take, List.mem_cons, List.not_mem_nil, or_false] at hp
  rcases hp with rfl | rfl <;> exact hrelu

theorem mnist_mlp_structure_witness :
    (128, Act.relu) ∈ mnistNet.take 2 ∧
      ¬ ∃ a : ℚ, ∀ x : ℚ, actFun (128, Act.relu).2 x = a * x :=
  ⟨by simp [mnistNet], mnist_mlp_structure.2.1 (128, Act.relu) (by simp [mnistNet])⟩

/-- C3.  For the two-Dense network built without `in_units`
(spec-modelled Gluon runtime): after `initialize()` alone the weight
shapes still contain 0 in the input dimension and the user initializer
has never run; the first forward pass on feature dimension 20 fixes
the shapes to (256, 20) and (10, 256) and invokes the initializer
exactly once per weight; a second forward pass changes nothing and
invokes it again on no weight.  The last conjunct states the
initializer is also never invoked at `initialize()` time for any layer
list. -/
theorem deferred_initialization_behavior :
    (weightShapes (initializeNet (getnet [256, 10])).layers
        (initializeNet (getnet [256, 10])).inDim = [(256, 0), (10, 0)] ∧
      (initializeNet (getnet [256, 10])).initLog = []) ∧
    (∃ s2 : DeferNet,
      forwardNet (initializeNet (getnet [256, 10])) 20 = .ok s2 ∧
      weightShapes s2.layers s2.inDim = [(256, 20), (10, 256)] ∧
      s2.initLog = [(256, 20), (10, 256)] ∧
      forwardNet s2 20 = .ok s2) ∧
    (∀ layers : List ℕ, (initializeNet (getnet layers)).initLog = []) := by
  exact ⟨⟨by decide, rfl⟩, ⟨_, rfl, by decide, by decide, rfl⟩, fun _ => rfl⟩

/-- C5.  Under spec-modelled data-parallel training, all device
replicas of the parameters are equal at every point between optimizer
steps: equal right after the broadcast initialization (the
`batches = []` case, covering the gpu(0)/gpu(1) equality check) and
still equal after any sequence of steps, each of which sums the
per-device gradients and applies the same aggregated update
everywhere. -/
theorem data_parallel_replicas_equal (n m : ℕ) (lr : ℚ)
    (batches : List (Fin n → Fin m → ℚ)) (v : Fin m → ℚ) (d d' : Fin n) :
    dpRun lr batches v d = dpRun lr batches v d' := by
  have key : ∀ (bs : List (Fin n → Fin m → ℚ)) (s : Fin n → Fin m → ℚ),
      (∀ e e' : Fin n, s e = s e') →
      ∀ e e', bs.foldl (fun s g => dpStep lr g s) s e
        = bs.foldl (fun s g => dpStep lr g s) s e' := by
    intro bs
    induction bs with
    | nil => intro s hs e e'; exact hs e e'
    | cons g rest ih =>
      intro s hs e e'
      refine ih (dpStep lr g s) ?_ e e'
      intro a b
      funext j
      simp only [dpStep]
      rw [congrFun (hs a b) j]
  exact key batches (dpInitialize n m v) (fun _ _ => rfl) d d'

/-- C2.  `attention_forward` returns the context variable
`∑ₜ αₜ · enc_states[t]` where `α` is the softmax over the time axis of
the scores of the two-layer attention model on the concatenated
encoder and broadcast decoder states; the attention weights are
non-negative and, for each batch element, sum to 1 over the `T`
encoder time steps. -/
theorem attention_forward_is_convex_combination {T B H A : ℕ}
    (W1 : Fin A → Fin (H + H) → ℝ) (v : Fin A → ℝ)
    (enc_states : Fin T → Fin B → Fin H → ℝ) (dec_state : Fin B → Fin H → ℝ)
    (hT : 0 < T) :
    (∀ t b, 0 ≤ softmaxTime (attentionScores W1 v enc_states dec_state) t b) ∧
    (∀ b, ∑ t, softmaxTime (attentionScores W1 v enc_states dec_state) t b = 1) ∧
    (∀ b h, attention_forward W1 v enc_states dec_state b h =
      ∑ t, softmaxTime (attentionScores W1 v enc_states dec_state) t b
        * enc_states t b h) := by
  have hpos : ∀ b, 0 < ∑ s, Real.exp (attentionScores W1 v enc_states dec_state s b) := by
    intro b
    have : Nonempty (Fin T) := ⟨⟨0, hT⟩⟩
    exact Finset.sum_pos (fun s _ => Real.exp_pos _) Finset.univ_nonempty
  refine ⟨?_, ?_, fun b h => rfl⟩
  · intro t b
    exact div_nonneg (Real.exp_pos _).le (hpos b).le
  · intro b
    simp only [softmaxTime]
    rw [← Finset.sum_div]
    exact div_self (hpos b).ne'

theorem attention_forward_is_convex_combination_witness :
    0 < 1 ∧
    ∀ b : Fin 1, ∑ t : Fin 1,
      softmaxTime (@attentionScores 1 1 1 1 (fun _ _ => 0) (fun _ => 0)
        (fun _ _ _ => 0) (fun _ _ => 0)) t b = 1 :=
  ⟨Nat.one_pos,
    (attention_forward_is_convex_combination (fun _ _ => 0) (fun _ => 0)
      (fun _ _ _ => 0) (fun _ _ => 0) Nat.one_pos).2.1⟩

/-! ## Lemmas on the translation data preparation -/

theorem process_one_seq_eq (t toks : List String) (seqs : List (List String))
    (msl : ℕ) :
    process_one_seq t toks seqs msl = (padSeq msl t, toks ++ t, seqs ++ [padSeq msl t]) :=
  rfl

theorem read_data_go (msl : ℕ) (lines : List (List String × List String)) :
    ∀ acc, lines.foldl (read_data_step msl) acc =
      ((acc.1.1 ++ (read_data lines msl).1.1, acc.1.2 ++ (read_data lines msl).1.2),
       (acc.2.1 ++ (read_data lines msl).2.1, acc.2.2 ++ (read_data lines msl).2.2)) := by
  induction lines with
  | nil => intro acc; simp [read_data]
  | cons line rest ih =>
    intro acc
    have hstep : List.foldl (read_data_step msl) acc (line :: rest)
        = List.foldl (read_data_step msl) (read_data_step msl acc line) rest := rfl
    have hRD : read_data (line :: rest) msl
        = List.foldl (read_data_step msl) (read_data_step msl (([], []), ([], [])) line) rest :=
      rfl
    rw [hstep, ih, hRD, ih]
    by_cases hc : (max line.1.length line.2.length : ℤ) > (msl : ℤ) - 1
    · simp [read_data_step, hc]
    · simp [read_data_step, hc, process_one_seq]

theorem read_data_cons (msl : ℕ) (line : List String × List String)
    (rest : List (List String × List String)) :
    read_data (line :: rest) msl =
      if (max line.1.length line.2.length : ℤ) > (msl : ℤ) - 1 then read_data rest msl
      else ((line.1 ++ (read_data rest msl).1.1,
             padSeq msl line.1 :: (read_data rest msl).1.2),
            (line.2 ++ (read_data rest msl).2.1,
             padSeq msl line.2 :: (read_data rest msl).2.2)) := by
  have h0 : read_data (line :: rest) msl
      = List.foldl (read_data_step msl) (read_data_step msl (([], []), ([], [])) line) rest :=
    rfl
  rw [h0, read_data_go msl rest]
  by_cases hc : (max line.1.length line.2.length : ℤ) > (msl : ℤ) - 1
  · simp [read_data_step, hc]
  · simp [read_data_step, hc, process_one_seq, padSeq]

theorem keptLines_cons (msl : ℕ) (line : List String × List String)
    (rest : List (List String × List String)) :
    keptLines (line :: rest) msl =
      if (max line.1.length line.2.length : ℤ) > (msl : ℤ) - 1 then keptLines rest msl
      else line :: keptLines rest msl := by
  by_cases hc : (max line.1.length line.2.length : ℤ) > (msl : ℤ) - 1
  · simp [keptLines, List.filter, hc]
  · simp [keptLines, List.filter, hc]

theorem read_data_structure (msl : ℕ) (lines : List (List String × List String)) :
    (read_data lines msl).1.2 = (keptLines lines msl).map (fun line => padSeq msl line.1) ∧
    (read_data lines msl).2.2 = (keptLines lines msl).map (fun line => padSeq msl line.2) ∧
    (read_data lines msl).1.1 = ((keptLines lines msl).map Prod.fst).flatten ∧
    (read_data lines msl).2.1 = ((keptLines lines msl).map Prod.snd).flatten := by
  induction lines with
  | nil => exact ⟨rfl, rfl, rfl, rfl⟩
  | cons line rest ih =>
    obtain ⟨i1, i2, i3, i4⟩ := ih
    rw [read_data_cons, keptLines_cons]
    by_cases hc : (max line.1.length line.2.length : ℤ) > (msl : ℤ) - 1
    · simpa [hc] using ⟨i1, i2, i3, i4⟩
    · simp only [if_neg hc, List.map_cons, List.flatten_cons]
      exact ⟨by simp [i1], by simp [i2], by simp [i3], by simp [i4]⟩

theorem padSeq_length (msl : ℕ) (t : List String)
    (h : (t.length : ℤ) ≤ (msl : ℤ) - 1) : (padSeq msl t).length = msl := by
  simp [padSeq]
  omega

/-- C9.  `read_data` keeps a line exactly when both sides have at most
`max_seq_len - 1` tokens; every recorded sequence is the original
tokens, then one `EOS`, then `PAD`s, of total length exactly
`max_seq_len`; `in_tokens`/`out_tokens` collect only the original
(unpadded) tokens of the kept lines; every row `build_data` derives
from the recorded sequences has width `max_seq_len`; and
`process_one_seq` returns the padded sequence it records (the
in-place-mutated `seq_tokens`) while extending `all_tokens` with the
original tokens only. -/
theorem read_data_rows_have_width_max_seq_len
    (lines : List (List String × List String)) (msl : ℕ) :
    ((read_data lines msl).1.2 = (keptLines lines msl).map (fun line => padSeq msl line.1)) ∧
    ((read_data lines msl).2.2 = (keptLines lines msl).map (fun line => padSeq msl line.2)) ∧
    ((read_data lines msl).1.1 = ((keptLines lines msl).map Prod.fst).flatten) ∧
    ((read_data lines msl).2.1 = ((keptLines lines msl).map Prod.snd).flatten) ∧
    (∀ seq ∈ (read_data lines msl).1.2, seq.length = msl) ∧
    (∀ seq ∈ (read_data lines msl).2.2, seq.length = msl) ∧
    (∀ toIdx : String → ℕ, ∀ row ∈ build_data toIdx (read_data lines msl).1.2,
      row.length = msl) ∧
    (∀ toIdx : String → ℕ, ∀ row ∈ build_data toIdx (read_data lines msl).2.2,
      row.length = msl) ∧
    (∀ (t toks : List String) (seqs : List (List String)),
      process_one_seq t toks seqs msl
        = (padSeq msl t, toks ++ t, seqs ++ [padSeq msl t])) := by
  obtain ⟨i1, i2, i3, i4⟩ := read_data_structure msl lines
  have hkept : ∀ line ∈ keptLines lines msl,
      ¬ ((max line.1.length line.2.length : ℤ) > (msl : ℤ) - 1) := by
    intro line hline
    have := List.of_mem_filter hline
    simpa using this
  have hlen1 : ∀ seq ∈ (read_data lines msl).1.2, seq.length = msl := by
    rw [i1]
    intro seq hseq
    obtain ⟨line, hline, rfl⟩ := List.mem_map.mp hseq
    have h := hkept line hline
    exact padSeq_length msl line.1 (by omega)
  have hlen2 : ∀ seq ∈ (read_data lines msl).2.2, seq.length = msl := by
    rw [i2]
    intro seq hseq
    obtain ⟨line, hline, rfl⟩ := List.mem_map.mp hseq
    have h := hkept line hline
    exact padSeq_length msl line.2 (by omega)
  refine ⟨i1, i2, i3, i4, hlen1, hlen2, ?_, ?_, fun _ _ _ => rfl⟩
  · intro toIdx row hrow
    obtain ⟨seq, hseq, rfl⟩ := List.mem_map.mp hrow
    simpa using hlen1 seq hseq
  · intro toIdx row hrow
    obtain ⟨seq, hseq, rfl⟩ := List.mem_map.mp hrow
    simpa using hlen2 seq hseq

theorem read_data_rows_have_width_max_seq_len_witness :
    (["a", EOS] ∈ (read_data [(["a"], ["b"])] 2).1.2) ∧
      (["a", EOS] : List String).length = 2 :=
  ⟨by decide,
    (read_data_rows_have_width_max_seq_len [(["a"], ["b"])] 2).2.2.2.2.1
      ["a", EOS] (by decide)⟩

/-! ## Lemmas on BLEU -/

theorem joinChars_cons (s : String) (rest : List String) (h : rest ≠ []) :
    joinChars (s :: rest) = s.toList ++ ' ' :: joinChars rest := by
  cases rest with
  | nil => exact absurd rfl h
  | cons t r => rfl

theorem joinChars_append (a b : List String) (ha : a ≠ []) (hb : b ≠ []) :
    joinChars (a ++ b) = joinChars a ++ ' ' :: joinChars b := by
  induction a with
  | nil => exact absurd rfl ha
  | cons x a' ih =>
    cases a' with
    | nil => simp [joinChars_cons x b hb, joinChars]
    | cons y a'' =>
      rw [List.cons_append, joinChars_cons x ((y :: a'') ++ b) (by simp),
        ih (by simp), joinChars_cons x (y :: a'') (by simp)]
      simp

/-- Joining a nonempty contiguous slice of a token list gives a
substring (character-list infix) of the joined whole. -/
theorem joinChars_mono {S l : List String} (hS : S ≠ []) (h : S <:+: l) :
    joinChars S <:+: joinChars l := by
  obtain ⟨A, C, rfl⟩ := h
  by_cases hA : A = []
  · by_cases hC : C = []
    · subst hA; subst hC; simp
    · subst hA
      simp only [List.nil_append]
      rw [joinChars_append S C hS hC]
      exact ⟨[], ' ' :: joinChars C, by simp⟩
  · by_cases hC : C = []
    · subst hC
      rw [List.append_nil, joinChars_append A S hA hS]
      exact ⟨joinChars A ++ [' '], [], by simp⟩
    · rw [joinChars_append (A ++ S) C (by simp [hA]) hC,
        joinChars_append A S hA hS]
      exact ⟨joinChars A ++ [' '], ' ' :: joinChars C, by simp⟩

theorem numMatches_self (l : List String) (n : ℕ) (hn : 1 ≤ n)
    (hnl : n ≤ l.length) : numMatches l l n = l.length + 1 - n := by
  unfold numMatches
  have hall : ∀ i ∈ List.range (l.length + 1 - n),
      (fun i => decide (joinChars ((l.drop i).take n) <:+: joinChars l)) i = true := by
    intro i hi
    rw [List.mem_range] at hi
    simp only [decide_eq_true_eq]
    apply joinChars_mono
    · intro hemp
      have hlen := congrArg List.length hemp
      simp at hlen
      omega
    · refine ⟨l.take i, (l.drop i).drop n, ?_⟩
      rw [List.append_assoc, List.take_append_drop, List.take_append_drop]
  rw [List.filter_eq_self.mpr hall, List.length_range]

theorem precision_self (l : List String) (n : ℕ) (hn : 1 ≤ n)
    (hnl : n ≤ l.length) : precision l l n = some 1 := by
  unfold precision
  rw [if_neg (by omega : ¬ ((l.length : ℤ) - n + 1 = 0))]
  have hz : ((l.length : ℤ) - n + 1) = ((l.length + 1 - n : ℕ) : ℤ) := by omega
  rw [numMatches_self l n hn hnl, hz]
  have : (((l.length + 1 - n : ℕ) : ℤ) : ℚ) = ((l.length + 1 - n : ℕ) : ℚ) := by
    push_cast
    ring
  rw [this, div_self (by exact_mod_cast (by omega : ¬ (l.length + 1 - n = 0)))]

theorem precisionsFrom_self (l : List String) :
    ∀ fuel n, 1 ≤ n → n + fuel ≤ l.length + 1 →
      precisionsFrom l l n fuel = some (List.replicate fuel 1) := by
  intro fuel
  induction fuel with
  | zero => intro n _ _; rfl
  | succ f ih =>
    intro n h1 h2
    simp only [precisionsFrom]
    rw [precision_self l n h1 (by omega), ih (n + 1) (by omega) (by omega)]
    rfl

theorem precisionsFrom_isSome (pred label : List String) :
    ∀ fuel (n : ℕ), (∀ m : ℕ, n ≤ m → m < n + fuel → ((pred.length : ℤ) - m + 1) ≠ 0) →
      ∃ ps, precisionsFrom pred label n fuel = some ps := by
  intro fuel
  induction fuel with
  | zero => exact fun n _ => ⟨[], rfl⟩
  | succ f ih =>
    intro n h
    have hp : precision pred label n
        = some ((numMatches pred label n : ℚ) /
            (((pred.length : ℤ) - n + 1 : ℤ) : ℚ)) := by
      unfold precision
      rw [if_neg (h n le_rfl (by omega))]
    obtain ⟨ps, hps⟩ := ih (n + 1) (fun m hm1 hm2 => h m (by omega) (by omega))
    refine ⟨(numMatches pred label n : ℚ) /
      (((pred.length : ℤ) - n + 1 : ℤ) : ℚ) :: ps, ?_⟩
    simp only [precisionsFrom]
    rw [hp, hps]
    rfl

theorem precisionsFrom_none (pred label : List String) :
    ∀ fuel (n m : ℕ), n ≤ m → m < n + fuel → ((pred.length : ℤ) - m + 1) = 0 →
      precisionsFrom pred label n fuel = none := by
  intro fuel
  induction fuel with
  | zero => intro n m h1 h2 _; omega
  | succ f ih =>
    intro n m h1 h2 h0
    by_cases hm : m = n
    · subst hm
      have hp : precision pred label m = none := by
        unfold precision
        rw [if_pos h0]
      simp only [precisionsFrom]
      rw [hp]
    · have hrec := ih (n + 1) m (by omega) (by omega) h0
      simp only [precisionsFrom]
      cases hp : precision pred label n
      · rfl
      · rw [hrec]
        rfl

theorem bleuScoreAux_ones : ∀ k n, bleuScoreAux n (List.replicate k 1) = 1 := by
  intro k
  induction k with
  | zero => intro n; rfl
  | succ f ih =>
    intro n
    simp only [List.replicate_succ, bleuScoreAux]
    rw [ih (n + 1)]
    simp [Real.one_rpow]

/-- C8.  `bleu` divides by `len_pred` (brevity penalty) and by
`len_pred − n + 1` for `n = 1, …, k`; under the precondition
`len_pred ≥ max(k, 1)` every divisor is positive and the run is total,
while an empty prediction, or one shorter than `k`, reaches a zero
divisor (`none`); and when the prediction equals the label and
satisfies the precondition, the score components are the exponent 0
and `k` precisions equal to 1, whose interpreted score
`exp 0 · ∏ₙ 1^(1/2ⁿ)` is 1. -/
theorem bleu_total_iff_pred_long_enough
    (pred_tokens label_tokens : List String) (k : ℕ) :
    (max k 1 ≤ pred_tokens.length →
      ∃ c, bleu pred_tokens label_tokens k = some c) ∧
    (pred_tokens.length < max k 1 →
      bleu pred_tokens label_tokens k = none) ∧
    (pred_tokens = label_tokens → max k 1 ≤ pred_tokens.length →
      bleu pred_tokens label_tokens k = some (0, List.replicate k 1) ∧
      bleuScore (0, List.replicate k 1) = 1) := by
  refine ⟨?_, ?_, ?_⟩
  · intro hlen
    unfold bleu
    rw [if_neg (by omega : ¬ (pred_tokens.length = 0))]
    obtain ⟨ps, hps⟩ := precisionsFrom_isSome pred_tokens label_tokens k 1
      (fun m hm1 hm2 => by omega)
    rw [hps]
    exact ⟨_, rfl⟩
  · intro hlen
    unfold bleu
    by_cases h0 : pred_tokens.length = 0
    · rw [if_pos h0]
    · rw [if_neg h0,
        precisionsFrom_none pred_tokens label_tokens k 1 (pred_tokens.length + 1)
          (by omega) (by omega) (by omega)]
      rfl
  · intro heq hlen
    subst heq
    have h0 : pred_tokens.length ≠ 0 := by omega
    constructor
    · unfold bleu
      rw [if_neg h0, precisionsFrom_self pred_tokens k 1 le_rfl (by omega)]
      have hds : (pred_tokens.length : ℚ) / (pred_tokens.length : ℚ) = 1 :=
        div_self (by exact_mod_cast h0)
      simp [hds]
    · unfold bleuScore
      rw [bleuScoreAux_ones]
      simp

theorem bleu_total_iff_pred_long_enough_witness :
    ((["a"] : List String) = ["a"] ∧ max 1 1 ≤ (["a"] : List String).length) ∧
      (bleu ["a"] ["a"] 1 = some (0, List.replicate 1 1) ∧
        bleuScore (0, List.replicate 1 1) = 1) :=
  ⟨⟨rfl, by decide⟩,
    (bleu_total_iff_pred_long_enough ["a"] ["a"] 1).2.2 rfl (by decide)⟩

end MLScratch
